import Mathlib

/-!
Verification of the hybrid rotor-machine / DES cryptosystem.

Shallow embedding of the three source files:
* `Des.py`      — namespace `Des`: bit-level DES (tables, permutations, key
  schedule, Feistel rounds, padding and the text codec).  Characters and bits
  are modelled as `Nat` (Python `ord` values and 0/1 integers); a Python
  string is a `List Nat` of ordinals, a bit vector is a `List Nat`.
* `Rotor.py`    — structures `Rotor` and `RotorMachine` with their methods.
* `HybridCryptosystem.py` — structure `HybridCryptosystem` composing the two.

List indexing `xs[i]` on in-range indices is modelled with `List.getD` (the
fixed DES tables only ever produce in-range indices for the intended operand
lengths); the exact Python index/slice semantics, including negative-index
wrap-around, is modelled separately by `Des.pyGet` / `Des.permPy` where a
claim is about that behaviour.
-/

set_option maxRecDepth 100000

namespace Des

/-- Initial permutation table `IP` from `Des.py`. -/
def IP : List Nat :=
  [58,50,42,34,26,18,10,2, 60,52,44,36,28,20,12,4,
   62,54,46,38,30,22,14,6, 64,56,48,40,32,24,16,8,
   57,49,41,33,25,17,9,1, 59,51,43,35,27,19,11,3,
   61,53,45,37,29,21,13,5, 63,55,47,39,31,23,15,7]

/-- Inverse initial permutation table `IP_INV` from `Des.py`. -/
def IP_INV : List Nat :=
  [40,8,48,16,56,24,64,32, 39,7,47,15,55,23,63,31,
   38,6,46,14,54,22,62,30, 37,5,45,13,53,21,61,29,
   36,4,44,12,52,20,60,28, 35,3,43,11,51,19,59,27,
   34,2,42,10,50,18,58,26, 33,1,41,9,49,17,57,25]

/-- Expansion permutation (E-table) from `Des.py`. -/
def E : List Nat :=
  [32,1,2,3,4,5, 4,5,6,7,8,9, 8,9,10,11,12,13,
   12,13,14,15,16,17, 16,17,18,19,20,21,
   20,21,22,23,24,25, 24,25,26,27,28,29,
   28,29,30,31,32,1]

/-- P-box from `Des.py`. -/
def P : List Nat :=
  [16,7,20,21,29,12,28,17,
   1,15,23,26,5,18,31,10,
   2,8,24,14,32,27,3,9,
   19,13,30,6,22,11,4,25]

/-- Permuted choice 1 from `Des.py`. -/
def PC1 : List Nat :=
  [57,49,41,33,25,17,9, 1,58,50,42,34,26,18,
   10,2,59,51,43,35,27, 19,11,3,60,52,44,36,
   63,55,47,39,31,23,15, 7,62,54,46,38,30,22,
   14,6,61,53,45,37,29, 21,13,5,28,20,12,4]

/-- Permuted choice 2 from `Des.py`. -/
def PC2 : List Nat :=
  [14,17,11,24,1,5, 3,28,15,6,21,10,
   23,19,12,4,26,8, 16,7,27,20,13,2,
   41,52,31,37,47,55, 30,40,51,45,33,48,
   44,49,39,56,34,53, 46,42,50,36,29,32]

/-- Per-round left-shift amounts from `Des.py`. -/
def SHIFTS : List Nat := [1,1,2,2,2,2,2,2, 1,2,2,2,2,2,2,1]

/-- The eight DES S-boxes from `Des.py`. -/
def SBOX : List (List (List Nat)) :=
  [[[14,4,13,1,2,15,11,8,3,10,6,12,5,9,0,7],
    [0,15,7,4,14,2,13,1,10,6,12,11,9,5,3,8],
    [4,1,14,8,13,6,2,11,15,12,9,7,3,10,5,0],
    [15,12,8,2,4,9,1,7,5,11,3,14,10,0,6,13]],
   [[15,1,8,14,6,11,3,4,9,7,2,13,12,0,5,10],
    [3,13,4,7,15,2,8,14,12,0,1,10,6,9,11,5],
    [0,14,7,11,10,4,13,1,5,8,12,6,9,3,2,15],
    [13,8,10,1,3,15,4,2,11,6,7,12,0,5,14,9]],
   [[10,0,9,14,6,3,15,5,1,13,12,7,11,4,2,8],
    [13,7,0,9,3,4,6,10,2,8,5,14,12,11,15,1],
    [13,6,4,9,8,15,3,0,11,1,2,12,5,10,14,7],
    [1,10,13,0,6,9,8,7,4,15,14,3,11,5,2,12]],
   [[7,13,14,3,0,6,9,10,1,2,8,5,11,12,4,15],
    [13,8,11,5,6,15,0,3,4,7,2,12,1,10,14,9],
    [10,6,9,0,12,11,7,13,15,1,3,14,5,2,8,4],
    [3,15,0,6,10,1,13,8,9,4,5,11,12,7,2,14]],
   [[2,12,4,1,7,10,11,6,8,5,3,15,13,0,14,9],
    [14,11,2,12,4,7,13,1,5,0,15,10,3,9,8,6],
    [4,2,1,11,10,13,7,8,15,9,12,5,6,3,0,14],
    [11,8,12,7,1,14,2,13,6,15,0,9,10,4,5,3]],
   [[12,1,10,15,9,2,6,8,0,13,3,4,14,7,5,11],
    [10,15,4,2,7,12,9,5,6,1,13,14,0,11,3,8],
    [9,14,15,5,2,8,12,3,7,0,4,10,1,13,11,6],
    [4,3,2,12,9,5,15,10,11,14,1,7,6,0,8,13]],
   [[4,11,2,14,15,0,8,13,3,12,9,7,5,10,6,1],
    [13,0,11,7,4,9,1,10,14,3,5,12,2,15,8,6],
    [1,4,11,13,12,3,7,14,10,15,6,8,0,5,9,2],
    [6,11,13,8,1,4,10,7,9,5,0,15,14,2,3,12]],
   [[13,2,8,4,6,15,11,1,10,9,3,14,5,0,12,7],
    [1,15,13,8,10,3,7,4,12,5,6,11,0,14,9,2],
    [7,11,4,1,9,12,14,2,0,6,10,13,15,3,5,8],
    [2,1,14,7,4,10,8,13,15,12,9,0,3,5,6,11]]]

/-- The function `perm(bits, table)` from `Des.py`: `[bits[i-1] for i in table]`.  All the
fixed DES tables have entries in `[1, len(bits)]` for the intended operand
lengths, so the in-range Python indexing is modelled by `List.getD`. -/
def perm (bits table : List Nat) : List Nat :=
  table.map (fun i => bits.getD (i - 1) 0)

/-- The function `xor(a, b)` from `Des.py`: elementwise XOR over `zip` (truncates to the
shorter list, exactly like Python's `zip`). -/
def xor (a b : List Nat) : List Nat := List.zipWith (fun i j => i ^^^ j) a b

/-- The function `shift_left(bits, n)` from `Des.py`: `bits[n:] + bits[:n]`. -/
def shift_left (bits : List Nat) (n : Nat) : List Nat := bits.drop n ++ bits.take n

/-- The function `gen_subkeys(key64)` from `Des.py`: parity-drop via `PC1`, split into two
28-bit halves, then for each shift amount rotate both halves and compress the
concatenation through `PC2`.  The Python loop mutating `C`, `D` and `sub` is
modelled as a fold carrying the pair of halves and the subkey list. -/
def gen_subkeys (key64 : List Nat) : List (List Nat) :=
  let key56 := perm key64 PC1
  (SHIFTS.foldl
    (fun st s =>
      let C := shift_left st.1.1 s
      let D := shift_left st.1.2 s
      ((C, D), st.2 ++ [perm (C ++ D) PC2]))
    ((key56.take 28, key56.drop 28), [])).2

/-- The function `sbox_sub(block48)` from `Des.py`: for each of the 8 six-bit groups, row
from the outer bits, column from the middle four bits, 4-bit S-box output. -/
def sbox_sub (block48 : List Nat) : List Nat :=
  (List.range 8).foldl
    (fun out i =>
      let chunk := (block48.drop (i * 6)).take 6
      let r := (chunk.getD 0 0 <<< 1) ||| chunk.getD 5 0
      let c := (chunk.getD 1 0 <<< 3) ||| (chunk.getD 2 0 <<< 2) |||
               (chunk.getD 3 0 <<< 1) ||| chunk.getD 4 0
      let val := ((SBOX.getD i []).getD r []).getD c 0
      out ++ [(val >>> 3) &&& 1, (val >>> 2) &&& 1, (val >>> 1) &&& 1, val &&& 1])
    []

/-- The function `feistel(R, K)` from `Des.py`. -/
def feistel (R K : List Nat) : List Nat := perm (sbox_sub (xor (perm R E) K)) P

/-- One iteration of the round loop in `des_block`:
`L, R = R, xor(L, feistel(R, K))`. -/
def roundStep (LR : List Nat × List Nat) (K : List Nat) : List Nat × List Nat :=
  (LR.2, xor LR.1 (feistel LR.2 K))

/-- The function `des_block(block64, subkeys, enc)` from `Des.py`: initial permutation,
16 Feistel rounds with the subkeys in forward (`enc = true`) or reversed
(`enc = false`) order, final swap, inverse initial permutation. -/
def des_block (block64 : List Nat) (subkeys : List (List Nat)) (enc : Bool) : List Nat :=
  let b := perm block64 IP
  let order := if enc then subkeys else subkeys.reverse
  let LR := order.foldl roundStep (b.take 32, b.drop 32)
  perm (LR.2 ++ LR.1) IP_INV

/-- Python list indexing `l[i]` for an integer index: non-negative indices
count from the front, negative indices from the back, anything else is an
IndexError (`none`). -/
def pyGet (l : List Nat) (i : Int) : Option Nat :=
  if 0 ≤ i ∧ i < l.length then some (l.getD i.toNat 0)
  else if -(l.length : Int) ≤ i ∧ i < 0 then some (l.getD ((l.length : Int) + i).toNat 0)
  else none

/-- The function `perm(bits, table)` with the exact Python index semantics (table entries
as integers): `[bits[i-1] for i in table]`, propagating an IndexError as
`none`. -/
def permPy (bits : List Nat) : List Int → Option (List Nat)
  | [] => some []
  | i :: rest => do
      let x ← pyGet bits (i - 1)
      let xs ← permPy bits rest
      pure (x :: xs)

/-- The eight bits of a character ordinal, most significant first: the Python
comprehension `[(v>>i)&1 for i in range(7,-1,-1)]` unrolled.  Note it reads
only the low 8 bits of `v`. -/
def char_bits (v : Nat) : List Nat :=
  [(v >>> 7) &&& 1, (v >>> 6) &&& 1, (v >>> 5) &&& 1, (v >>> 4) &&& 1,
   (v >>> 3) &&& 1, (v >>> 2) &&& 1, (v >>> 1) &&& 1, (v >>> 0) &&& 1]

/-- The function `string_to_bits(s)` from `Des.py`: concatenate the 8-bit encodings of the
ordinals in character order.  It silently truncates ordinals ≥ 256 to their
low 8 bits (the spec flags this as a defect: it should be an EncodingError). -/
def string_to_bits (s : List Nat) : List Nat := (s.map char_bits).flatten

/-- The inner loop of `bits_to_string`: `v = (v<<1)|bit` over a byte. -/
def byte_val (byte : List Nat) : Nat := byte.foldl (fun v bit => (v <<< 1) ||| bit) 0

/-- The function `bits_to_string(b)` from `Des.py`: the loop `for i in range(0, len(b), 8)`
consumes successive 8-bit chunks (the final chunk may be shorter) and emits
one character ordinal per chunk. -/
def bits_to_string : List Nat → List Nat
  | [] => []
  | b1 :: b2 :: b3 :: b4 :: b5 :: b6 :: b7 :: b8 :: rest =>
      byte_val [b1, b2, b3, b4, b5, b6, b7, b8] :: bits_to_string rest
  | short => [byte_val short]

/-- The function `pad(bits)` from `Des.py`: `pad_len = 8 - ((len(bits)//8) % 8)`, then
append `string_to_bits(chr(pad_len)) * pad_len` (Python list repetition). -/
def pad (bits : List Nat) : List Nat :=
  let pad_len := 8 - ((bits.length / 8) % 8)
  bits ++ (List.replicate pad_len (string_to_bits [pad_len])).flatten

/-- Python slice `l[:-n]` for a non-negative `n`: empty when `n = 0` (because
`-0 == 0`, so the slice is `l[:0]`), otherwise the list without its last `n`
elements (empty when `n ≥ len(l)`, matching Python's clamping). -/
def pySliceDropLast (l : List Nat) (n : Nat) : List Nat :=
  if n = 0 then [] else l.take (l.length - n)

/-- The function `unpad(bits)` from `Des.py`: read the last byte (`bits[-8:]`, which is the
whole list when it is shorter than 8), decode it via `bits_to_string`/`ord`,
and slice off that many bytes with `bits[:-(pad_len*8)]`.  The code performs
no validation of `pad_len`.  (For empty `bits` Python's `ord("")` raises a
`TypeError`; this model returns `[]` there — no claim concerns that input.) -/
def unpad (bits : List Nat) : List Nat :=
  let pad_byte := bits.drop (bits.length - 8)
  let pad_len := (bits_to_string pad_byte).headD 0
  pySliceDropLast bits (pad_len * 8)

/-- One iteration per 64-bit chunk, recursing on the iteration count. -/
def des_blocks_go (subkeys : List (List Nat)) (enc : Bool) : Nat → List Nat → List Nat
  | 0, _ => []
  | n + 1, bits => des_block (bits.take 64) subkeys enc ++
      des_blocks_go subkeys enc n (bits.drop 64)

/-- The block loop shared by `des_encrypt` and `des_decrypt` in `Des.py`:
`for i in range(0, len(bits), 64): out += des_block(bits[i:i+64], sub, enc)`.
The Python `range` performs exactly `⌈len(bits)/64⌉` iterations. -/
def des_blocks (bits : List Nat) (subkeys : List (List Nat)) (enc : Bool) : List Nat :=
  des_blocks_go subkeys enc ((bits.length + 63) / 64) bits

/-- The function `des_encrypt(text, key64)` from `Des.py`. -/
def des_encrypt (text key64 : List Nat) : List Nat :=
  des_blocks (pad (string_to_bits text)) (gen_subkeys key64) true

/-- The function `des_decrypt(bitstream, key64)` from `Des.py`. -/
def des_decrypt (bitstream key64 : List Nat) : List Nat :=
  bits_to_string (unpad (des_blocks bitstream (gen_subkeys key64) false))

/-- The identity permutation table `[1, 2, ..., n]`. -/
def idTable (n : Nat) : List Nat := (List.range n).map (fun i => i + 1)

end Des

/-- Python `str.upper()` on a single ordinal, for the 8-bit character range
this system handles. -/
def upperChar (c : Nat) : Nat := if 97 ≤ c ∧ c ≤ 122 then c - 32 else c

/-- Python `str.isalpha()` restricted to the ASCII range (ordinals < 128),
which is the character domain of this system: the spec's text boundary is
raw 8-bit characters and every claim concerns printable ASCII.  Theorems
about alphabetic dispatch carry an explicit `< 128` hypothesis so that this
model is only relied on where it is exact. -/
def pyIsAlpha (c : Nat) : Bool := (65 ≤ c && c ≤ 90) || (97 ≤ c && c ≤ 122)

/-- A single rotor from `Rotor.py`: wiring (uppercased by `__init__`), notch
position, current position, and the precomputed reverse wiring. -/
structure Rotor where
  wiring : List Nat
  notch_position : Nat
  position : Nat
  reverse_wiring : List Nat

/-- The reverse-wiring computation in `Rotor.__init__`: start from 26 blank
slots and set slot `ord(char) - 65` to `65 + i` for each wiring position `i`
(the blank placeholder is 0; a valid wiring overwrites every slot). -/
def mkReverseWiring (w : List Nat) : List Nat :=
  w.enum.foldl (fun acc p => acc.set (p.2 - 65) (65 + p.1)) (List.replicate 26 0)

/-- The function `Rotor.__init__(wiring, notch_position, initial_position)`. -/
def mkRotor (wiring : List Nat) (notch_position initial_position : Nat) : Rotor :=
  { wiring := wiring.map upperChar
    notch_position := notch_position
    position := initial_position
    reverse_wiring := mkReverseWiring (wiring.map upperChar) }

/-- The function `Rotor.rotate`: advance the position mod 26 and report whether the new
position equals the notch. -/
def Rotor.rotate (r : Rotor) : Rotor × Bool :=
  ({ r with position := (r.position + 1) % 26 },
   (r.position + 1) % 26 == r.notch_position)

/-- The alphabetic branch shared by `encrypt_forward` and `encrypt_backward`:
shift the alphabet index by `+position`, look up the table, shift the result
by `-position`.  Python's `%` on a possibly negative left operand returns a
nonnegative value for modulus 26, which is `Int.emod`. -/
def rotorMap (table : List Nat) (pos c : Nat) : Nat :=
  let index := (((c : Int) - 65 + (pos : Int)) % 26).toNat
  let encrypted_char := table.getD index 0
  let encrypted_index := (((encrypted_char : Int) - 65 - (pos : Int)) % 26).toNat
  65 + encrypted_index

/-- The function `Rotor.encrypt_forward`: non-alphabetic input passes through unchanged;
otherwise uppercase and map through the wiring. -/
def Rotor.encrypt_forward (r : Rotor) (c : Nat) : Nat :=
  if pyIsAlpha c = false then c else rotorMap r.wiring r.position (upperChar c)

/-- The function `Rotor.encrypt_backward`: like `encrypt_forward` but through the reverse
wiring. -/
def Rotor.encrypt_backward (r : Rotor) (c : Nat) : Nat :=
  if pyIsAlpha c = false then c else rotorMap r.reverse_wiring r.position (upperChar c)

/-- The rotor machine from `Rotor.py`: rotor1 is leftmost, rotor3 rightmost,
plus the rotation counter kept by the source. -/
structure RotorMachine where
  rotor1 : Rotor
  rotor2 : Rotor
  rotor3 : Rotor
  rotation_count : Nat

/-- The function `RotorMachine.__init__`. -/
def mkRotorMachine (w1 w2 w3 : List Nat) (n1 n2 n3 p1 p2 p3 : Nat) : RotorMachine :=
  { rotor1 := mkRotor w1 n1 p1
    rotor2 := mkRotor w2 n2 p2
    rotor3 := mkRotor w3 n3 p3
    rotation_count := 0 }

/-- The function `RotorMachine.rotate_rotors`: the rightmost rotor always rotates; the
middle rotates when the rightmost signals its notch; the leftmost rotates
when the middle then signals its notch. -/
def RotorMachine.rotate_rotors (m : RotorMachine) : RotorMachine :=
  let r3 := m.rotor3.rotate
  let m1 := { m with rotor3 := r3.1, rotation_count := m.rotation_count + 1 }
  if r3.2 then
    let r2 := m1.rotor2.rotate
    let m2 := { m1 with rotor2 := r2.1, rotation_count := m1.rotation_count + 1 }
    if r2.2 then
      { m2 with rotor1 := m2.rotor1.rotate.1, rotation_count := m2.rotation_count + 1 }
    else m2
  else m1

/-- The function `RotorMachine.encrypt_char`: non-alphabetic characters return unchanged
without stepping; otherwise step, then forward through rotors 3→2→1, the
reflector `chr(ord('Z') - (ord(result) - ord('A')))`, and backward through
rotors 1→2→3.  In the alphabetic flow the reflector operand is in `[65, 90]`,
where the `Nat` subtraction coincides with Python's arithmetic. -/
def RotorMachine.encrypt_char (m : RotorMachine) (c : Nat) : RotorMachine × Nat :=
  if pyIsAlpha c = false then (m, c)
  else
    let m1 := m.rotate_rotors
    let s1 := m1.rotor3.encrypt_forward (upperChar c)
    let s2 := m1.rotor2.encrypt_forward s1
    let s3 := m1.rotor1.encrypt_forward s2
    let s4 := 90 - (s3 - 65)
    let s5 := m1.rotor1.encrypt_backward s4
    let s6 := m1.rotor2.encrypt_backward s5
    let s7 := m1.rotor3.encrypt_backward s6
    (m1, s7)

/-- The function `RotorMachine.encrypt(message)`: the loop `for char in message`, feeding
alphabetic characters through `encrypt_char` (threading the mutated machine)
and appending other characters unchanged. -/
def RotorMachine.encrypt (m : RotorMachine) : List Nat → RotorMachine × List Nat
  | [] => (m, [])
  | c :: rest =>
      if pyIsAlpha c then
        let p := m.encrypt_char c
        let q := p.1.encrypt rest
        (q.1, p.2 :: q.2)
      else
        let q := m.encrypt rest
        (q.1, c :: q.2)

/-- The function `RotorMachine.reset(p1, p2, p3)`: set the three positions and clear the
rotation counter; wiring and notches untouched. -/
def RotorMachine.reset (m : RotorMachine) (p1 p2 p3 : Nat) : RotorMachine :=
  { m with rotor1 := { m.rotor1 with position := p1 },
           rotor2 := { m.rotor2 with position := p2 },
           rotor3 := { m.rotor3 with position := p3 },
           rotation_count := 0 }

/-- Default rotor-1 wiring "EKMFLGDQVZNTOWYHXUSPAIBRCJ" as ordinals. -/
def rotor1_wiring : List Nat :=
  [69,75,77,70,76,71,68,81,86,90,78,84,79,87,89,72,88,85,83,80,65,73,66,82,67,74]

/-- Default rotor-2 wiring "AJDKSIRUXBLHWTMCQGZNPYFVOE" as ordinals. -/
def rotor2_wiring : List Nat :=
  [65,74,68,75,83,73,82,85,88,66,76,72,87,84,77,67,81,71,90,78,80,89,70,86,79,69]

/-- Default rotor-3 wiring "BDFHJLCPRTXVZNYEIWGAKMUSQO" as ordinals. -/
def rotor3_wiring : List Nat :=
  [66,68,70,72,74,76,67,80,82,84,88,86,90,78,89,69,73,87,71,65,75,77,85,83,81,79]

/-- The hybrid pipeline state from `HybridCryptosystem.py`. -/
structure HybridCryptosystem where
  rotor_machine : RotorMachine
  initial_rotor_positions : Nat × Nat × Nat
  des_key : List Nat

/-- The function `HybridCryptosystem.__init__` with explicit arguments (the Python default
wirings are `rotor1_wiring`/`rotor2_wiring`/`rotor3_wiring`; the random-key
branch, which draws on `secrets` when no key is given, is outside this model
— a caller-supplied key is assumed). -/
def mkHybridCryptosystem (w1 w2 w3 : List Nat) (n1 n2 n3 p1 p2 p3 : Nat)
    (des_key : List Nat) : HybridCryptosystem :=
  { rotor_machine := mkRotorMachine w1 w2 w3 n1 n2 n3 p1 p2 p3
    initial_rotor_positions := (p1, p2, p3)
    des_key := des_key }

/-- The function `HybridCryptosystem.reset_rotors`. -/
def HybridCryptosystem.reset_rotors (h : HybridCryptosystem) : HybridCryptosystem :=
  { h with rotor_machine := (h.rotor_machine.reset h.initial_rotor_positions.1
      h.initial_rotor_positions.2.1 h.initial_rotor_positions.2.2) }

/-- The function `HybridCryptosystem.encrypt`.  Modelled from the spec: the `DES` class
that `HybridCryptosystem.py` loads from `Des.py` does not exist in that file
(only free functions do); per spec §4.5, `DES.encrypt(text, key)` is the
pad-encode-then-independent-blocks routine, i.e. `des_encrypt`.  The rotor
machine is reset to the configured initial positions first; the mutated
machine state is not observable by later pipeline calls (each begins with its
own reset), so `encrypt`/`decrypt` are modelled as functions returning the
output. -/
def HybridCryptosystem.encrypt (h : HybridCryptosystem) (plaintext : List Nat) : List Nat :=
  let h1 := h.reset_rotors
  Des.des_encrypt (h1.rotor_machine.encrypt plaintext).2 h1.des_key

/-- The function `HybridCryptosystem.decrypt`.  Modelled from the spec: `DES.decrypt` is
`des_decrypt` (see `HybridCryptosystem.encrypt`). -/
def HybridCryptosystem.decrypt (h : HybridCryptosystem) (ciphertext_bits : List Nat) : List Nat :=
  let des_decrypted := Des.des_decrypt ciphertext_bits h.des_key
  let h1 := h.reset_rotors
  (h1.rotor_machine.encrypt des_decrypted).2

/-- The function `HybridCryptosystem.get_des_key_hex`, inner nibble loop: the value of a
4-bit chunk, `val = (val << 1) | bit`. -/
def nibble_val (l : List Nat) : Nat := l.foldl (fun v b => (v <<< 1) ||| b) 0

/-- Python `format(val, 'x')` for a nibble value (0–15): one lowercase hex
digit. -/
def hexDigitChar (v : Nat) : Nat := if v < 10 then 48 + v else 87 + v

/-- The nibble loop of `get_des_key_hex`: `for i in range(0, len(key), 4)`,
one hex digit per 4-bit chunk, recursing on the iteration count. -/
def hex_nibbles_go : Nat → List Nat → List Nat
  | 0, _ => []
  | n + 1, key => hexDigitChar (nibble_val (key.take 4)) :: hex_nibbles_go n (key.drop 4)

/-- The function `HybridCryptosystem.get_des_key_hex`: build the lowercase hex string of
the key, then `.upper()` it. -/
def get_des_key_hex (des_key : List Nat) : List Nat :=
  (hex_nibbles_go ((des_key.length + 3) / 4) des_key).map upperChar

/-- Python `int(char, 16)` on a single character: `none` models the
`ValueError` on a non-hex-digit. -/
def parseHexDigit (c : Nat) : Option Nat :=
  if 48 ≤ c ∧ c ≤ 57 then some (c - 48)
  else if 97 ≤ c ∧ c ≤ 102 then some (c - 87)
  else if 65 ≤ c ∧ c ≤ 70 then some (c - 55)
  else none

/-- The four bits of a nibble value, most significant first:
`[(val >> i) & 1 for i in range(3, -1, -1)]`. -/
def nibble_bits (v : Nat) : List Nat :=
  [(v >>> 3) &&& 1, (v >>> 2) &&& 1, (v >>> 1) &&& 1, (v >>> 0) &&& 1]

/-- The digit loop of `set_des_key_from_hex`, propagating the `ValueError` of
`int(char, 16)` as `none`. -/
def parse_hex_key : List Nat → Option (List Nat)
  | [] => some []
  | c :: rest => do
      let v ← parseHexDigit c
      let vs ← parse_hex_key rest
      pure (nibble_bits v ++ vs)

/-- The function `HybridCryptosystem.set_des_key_from_hex`: reject (ValueError) unless the
string has exactly 16 characters, then expand each hex digit to 4 bits, most
significant first.  Returns the new `des_key`. -/
def set_des_key_from_hex (hex_key : List Nat) : Option (List Nat) :=
  if hex_key.length ≠ 16 then none else parse_hex_key hex_key

/-- A wiring that is a permutation of the 26 uppercase letters: 26 pairwise
distinct ordinals, all in `[65, 90]`. -/
def validWiring (w : List Nat) : Prop :=
  w.length = 26 ∧ w.Nodup ∧ ∀ c ∈ w, 65 ≤ c ∧ c ≤ 90

/-- Rotor fields as produced by `Rotor.__init__` from a valid wiring: the
stored reverse wiring matches the stored (uppercase) wiring. -/
def WFRotor (r : Rotor) : Prop :=
  validWiring r.wiring ∧ r.reverse_wiring = mkReverseWiring r.wiring

/-- All three rotors of a machine well-formed. -/
def WFMachine (m : RotorMachine) : Prop :=
  WFRotor m.rotor1 ∧ WFRotor m.rotor2 ∧ WFRotor m.rotor3

namespace Des

theorem length_perm (bits table : List Nat) : (perm bits table).length = table.length := by
  simp [perm]

theorem getD_map_lt (f : Nat → Nat) (l : List Nat) (n : Nat) (h : n < l.length) :
    (l.map f).getD n 0 = f (l.getD n 0) := by
  rw [List.getD_eq_getElem _ _ (by simpa using h), List.getD_eq_getElem _ _ h]
  simp

/-- Applying two permutation tables in sequence is applying their composite
table, provided the outer table only holds in-range indices. -/
theorem perm_perm (bits t1 t2 : List Nat)
    (h : ∀ i ∈ t2, 1 ≤ i ∧ i ≤ t1.length) :
    perm (perm bits t1) t2 = perm bits (perm t1 t2) := by
  unfold perm
  rw [List.map_map]
  apply List.map_congr_left
  intro i hi
  have h1 := h i hi
  simp only [Function.comp_apply]
  rw [getD_map_lt]
  omega

theorem perm_idTable (bits : List Nat) (n : Nat) (h : bits.length = n) :
    perm bits (idTable n) = bits := by
  unfold perm idTable
  rw [List.map_map]
  apply List.ext_getElem
  · simp [h]
  · intro i h1 h2
    simp only [List.getElem_map, List.getElem_range, Function.comp_apply,
      Nat.add_sub_cancel]
    rw [List.getD_eq_getElem _ _ h2]

theorem IP_entries : ∀ i ∈ IP, 1 ≤ i ∧ i ≤ IP_INV.length := by decide

theorem IP_INV_entries : ∀ i ∈ IP_INV, 1 ≤ i ∧ i ≤ IP.length := by decide

theorem IP_INV_comp_IP : perm IP_INV IP = idTable 64 := by decide

theorem IP_comp_IP_INV : perm IP IP_INV = idTable 64 := by decide

theorem length_xor (a b : List Nat) : (xor a b).length = min a.length b.length := by
  simp [xor]

theorem xor_xor_cancel (a b : List Nat) (h : a.length ≤ b.length) :
    xor (xor a b) b = a := by
  induction a generalizing b with
  | nil => simp [xor]
  | cons x xs ih =>
    cases b with
    | nil => simp at h
    | cons y ys =>
      simp only [xor, List.zipWith_cons_cons, List.length_cons] at *
      rw [Nat.xor_assoc, Nat.xor_self, Nat.xor_zero, ih ys (by omega)]

theorem length_feistel (R K : List Nat) : (feistel R K).length = 32 := by
  rw [feistel, length_perm]
  rfl

theorem foldl_roundStep_lengths (ks : List (List Nat)) (L R : List Nat)
    (h1 : L.length = 32) (h2 : R.length = 32) :
    (ks.foldl roundStep (L, R)).1.length = 32 ∧
    (ks.foldl roundStep (L, R)).2.length = 32 := by
  induction ks generalizing L R with
  | nil => exact ⟨h1, h2⟩
  | cons k ks ih =>
    rw [List.foldl_cons]
    exact ih R (xor L (feistel R k)) h2 (by rw [length_xor, length_feistel]; omega)

/-- Running the round loop with the reversed key order, starting from the
swapped output of the forward loop, recovers the swapped initial state. -/
theorem foldl_roundStep_inv (ks : List (List Nat)) (L R : List Nat)
    (h1 : L.length ≤ 32) (h2 : R.length ≤ 32) :
    ks.reverse.foldl roundStep (Prod.swap (ks.foldl roundStep (L, R))) = (R, L) := by
  induction ks generalizing L R with
  | nil => rfl
  | cons k ks ih =>
    rw [List.foldl_cons, List.reverse_cons, List.foldl_append]
    have hX : (xor L (feistel R k)).length ≤ 32 := by
      rw [length_xor, length_feistel]; omega
    have hstep : roundStep (L, R) k = (R, xor L (feistel R k)) := rfl
    rw [hstep, ih R (xor L (feistel R k)) h2 hX]
    show roundStep (xor L (feistel R k), R) k = (R, L)
    unfold roundStep
    rw [xor_xor_cancel L (feistel R k) (by rw [length_feistel]; exact h1)]

/-- Decrypting an encrypted 64-bit block with the same subkey list recovers
the block: the core involution behind `des_block`. -/
theorem des_block_inv (b : List Nat) (ks : List (List Nat)) (h : b.length = 64) :
    des_block (des_block b ks true) ks false = b := by
  unfold des_block
  simp only [if_true, Bool.false_eq_true, if_false]
  have hip : (perm b IP).length = 64 := by rw [length_perm]; rfl
  have hLlen : ((perm b IP).take 32).length = 32 := by simp [hip]
  have hRlen : ((perm b IP).drop 32).length = 32 := by simp [hip]
  have hlens := foldl_roundStep_lengths ks _ _ hLlen hRlen
  set LR := ks.foldl roundStep ((perm b IP).take 32, (perm b IP).drop 32) with hLR
  have happ : (LR.2 ++ LR.1).length = 64 := by
    rw [List.length_append, hlens.1, hlens.2]
  have h1 : perm (perm (LR.2 ++ LR.1) IP_INV) IP = LR.2 ++ LR.1 := by
    rw [perm_perm _ _ _ IP_entries, IP_INV_comp_IP, perm_idTable _ _ happ]
  rw [h1]
  have h2 : (LR.2 ++ LR.1).take 32 = LR.2 := by
    rw [← hlens.2]; exact List.take_left _ _
  have h3 : (LR.2 ++ LR.1).drop 32 = LR.1 := by
    rw [← hlens.2]; exact List.drop_left _ _
  rw [h2, h3]
  have h4 : ks.reverse.foldl roundStep (LR.2, LR.1) = ((perm b IP).drop 32, (perm b IP).take 32) := by
    have := foldl_roundStep_inv ks ((perm b IP).take 32) ((perm b IP).drop 32)
      (le_of_eq hLlen) (le_of_eq hRlen)
    rw [← hLR] at this
    exact this
  rw [h4]
  show perm ((perm b IP).take 32 ++ (perm b IP).drop 32) IP_INV = b
  rw [List.take_append_drop]
  rw [perm_perm _ _ _ IP_INV_entries, IP_comp_IP_INV, perm_idTable _ _ h]

theorem length_des_block (b : List Nat) (ks : List (List Nat)) (e : Bool) :
    (des_block b ks e).length = 64 := by
  simp only [des_block]
  rw [length_perm]
  rfl

theorem length_des_blocks_go (ks : List (List Nat)) (e : Bool) (n : Nat) (bits : List Nat) :
    (des_blocks_go ks e n bits).length = 64 * n := by
  induction n generalizing bits with
  | zero => rfl
  | succ m ih =>
      rw [des_blocks_go, List.length_append, length_des_block, ih]
      ring

/-- Chunk-count decryption undoes chunk-count encryption when the stream is
exactly `n` chunks of 64 bits. -/
theorem des_blocks_go_inv (ks : List (List Nat)) (n : Nat) :
    ∀ bits : List Nat, bits.length = 64 * n →
      des_blocks_go ks false n (des_blocks_go ks true n bits) = bits := by
  induction n with
  | zero =>
      intro bits h
      have : bits = [] := List.length_eq_zero.mp (by omega)
      subst this
      rfl
  | succ m ih =>
      intro bits h
      have htake : (bits.take 64).length = 64 := by
        rw [List.length_take]; omega
      have hdrop : (bits.drop 64).length = 64 * m := by
        rw [List.length_drop]; omega
      rw [des_blocks_go, des_blocks_go]
      have hlen : (des_block (bits.take 64) ks true).length = 64 := length_des_block _ _ _
      have ht : (des_block (bits.take 64) ks true ++
          des_blocks_go ks true m (bits.drop 64)).take 64 = des_block (bits.take 64) ks true := by
        rw [← hlen]; exact List.take_left _ _
      have hd : (des_block (bits.take 64) ks true ++
          des_blocks_go ks true m (bits.drop 64)).drop 64 =
          des_blocks_go ks true m (bits.drop 64) := by
        rw [← hlen]; exact List.drop_left _ _
      rw [ht, hd, des_block_inv _ ks htake, ih (bits.drop 64) hdrop, List.take_append_drop]

/-- Block-wise decryption undoes block-wise encryption on any bitstream whose
length is a multiple of 64. -/
theorem des_blocks_inv (ks : List (List Nat)) (bits : List Nat) (h : 64 ∣ bits.length) :
    des_blocks (des_blocks bits ks true) ks false = bits := by
  rcases h with ⟨m, hm⟩
  unfold des_blocks
  have hc1 : (bits.length + 63) / 64 = m := by omega
  rw [hc1]
  have hlen : (des_blocks_go ks true m bits).length = 64 * m := length_des_blocks_go _ _ _ _
  have hc2 : ((des_blocks_go ks true m bits).length + 63) / 64 = m := by
    rw [hlen]; omega
  rw [hc2]
  exact des_blocks_go_inv ks m bits (by omega)

theorem byte_val_char_bits : ∀ v < 256, byte_val (char_bits v) = v := by decide

theorem length_char_bits (v : Nat) : (char_bits v).length = 8 := rfl

theorem string_to_bits_cons (c : Nat) (s : List Nat) :
    string_to_bits (c :: s) = char_bits c ++ string_to_bits s := by
  simp [string_to_bits]

theorem length_string_to_bits (s : List Nat) : (string_to_bits s).length = 8 * s.length := by
  induction s with
  | nil => rfl
  | cons c rest ih =>
      rw [string_to_bits_cons, List.length_append, length_char_bits, ih, List.length_cons]
      ring

theorem bits_to_string_char_append (c : Nat) (X : List Nat) :
    bits_to_string (char_bits c ++ X) = byte_val (char_bits c) :: bits_to_string X := rfl

/-- Decoding inverts encoding on ordinals below 256 (the supported range). -/
theorem bits_to_string_string_to_bits (s : List Nat) (h : ∀ c ∈ s, c < 256) :
    bits_to_string (string_to_bits s) = s := by
  induction s with
  | nil => rfl
  | cons c rest ih =>
      rw [string_to_bits_cons, bits_to_string_char_append,
        byte_val_char_bits c (h c (by simp)), ih (fun x hx => h x (by simp [hx]))]

theorem length_flatten_replicate (n : Nat) (l : List Nat) :
    ((List.replicate n l).flatten).length = n * l.length := by
  induction n with
  | zero => simp
  | succ m ih =>
      rw [List.replicate_succ, List.flatten_cons, List.length_append, ih]
      ring

theorem length_string_to_bits_single (v : Nat) : (string_to_bits [v]).length = 8 := rfl

/-- The last byte of `(replicate k B).flatten` is `B`, for 8-bit `B`. -/
theorem drop_flatten_replicate (B : List Nat) (hB : B.length = 8) :
    ∀ k, 1 ≤ k → ((List.replicate k B).flatten).drop (8 * k - 8) = B
  | 1, _ => by simp
  | (n + 2), _ => by
      rw [List.replicate_succ, List.flatten_cons]
      have h1 : 8 * (n + 2) - 8 = B.length + (8 * (n + 1) - 8) := by omega
      rw [h1, ← List.drop_drop, List.drop_left]
      exact drop_flatten_replicate B hB (n + 1) (by omega)

/-- The function `unpad` always undoes `pad` (no byte-alignment of the input is needed:
the trailing pad bytes alone determine the slice). -/
theorem unpad_pad (X : List Nat) : unpad (pad X) = X := by
  set k := 8 - ((X.length / 8) % 8) with hk
  have hk1 : 1 ≤ k := by omega
  have hk8 : k ≤ 8 := by omega
  have hpad : pad X = X ++ (List.replicate k (string_to_bits [k])).flatten := rfl
  have hlen8 : (string_to_bits [k]).length = 8 := length_string_to_bits_single k
  have happlen : ((List.replicate k (string_to_bits [k])).flatten).length = k * 8 := by
    rw [length_flatten_replicate, hlen8]
  have hplen : (pad X).length = X.length + k * 8 := by
    rw [hpad, List.length_append, happlen]
  have hdrop : (pad X).drop ((pad X).length - 8) = string_to_bits [k] := by
    rw [hpad, List.length_append, happlen]
    have hsplit : X.length + k * 8 - 8 = X.length + (8 * k - 8) := by omega
    rw [hsplit, ← List.drop_drop, List.drop_left]
    exact drop_flatten_replicate (string_to_bits [k]) hlen8 k hk1
  have hbyte : (bits_to_string ((pad X).drop ((pad X).length - 8))).headD 0 = k := by
    rw [hdrop, bits_to_string_string_to_bits [k] (by intro c hc; simp at hc; omega)]
    rfl
  show pySliceDropLast (pad X)
    ((bits_to_string ((pad X).drop ((pad X).length - 8))).headD 0 * 8) = X
  rw [hbyte]
  unfold pySliceDropLast
  rw [if_neg (by omega), hplen]
  have h2 : X.length + k * 8 - k * 8 = X.length := by omega
  rw [h2, hpad]
  exact List.take_left _ _

/-- The function `pyGet` succeeds exactly on indices in `[-len, len)`. -/
theorem pyGet_isSome (l : List Nat) (i : Int) :
    (pyGet l i).isSome ↔ -(l.length : Int) ≤ i ∧ i < l.length := by
  unfold pyGet
  by_cases h1 : 0 ≤ i ∧ i < (l.length : Int)
  · rw [if_pos h1]; simp; omega
  · rw [if_neg h1]
    by_cases h2 : -(l.length : Int) ≤ i ∧ i < 0
    · rw [if_pos h2]; simp; omega
    · rw [if_neg h2]; simp; omega

theorem pyGet_of_pos (l : List Nat) (i : Int) (h0 : 0 ≤ i) (h1 : i < l.length) :
    pyGet l i = some (l.getD i.toNat 0) := by
  unfold pyGet
  rw [if_pos ⟨h0, h1⟩]

/-- The function `permPy` succeeds iff every shifted index is in Python's valid range, and
on tables whose entries are all in `[1, len]` it agrees with `perm`. -/
theorem permPy_spec (bits : List Nat) (table : List Int) :
    ((permPy bits table).isSome ↔
      ∀ i ∈ table, 1 - (bits.length : Int) ≤ i ∧ i ≤ (bits.length : Int)) ∧
    ((∀ i ∈ table, 1 ≤ i ∧ i ≤ (bits.length : Int)) →
      permPy bits table = some (perm bits (table.map Int.toNat))) := by
  induction table with
  | nil =>
      constructor
      · simp [permPy]
      · intro _; rfl
  | cons i rest ih =>
      constructor
      · rw [permPy]
        constructor
        · intro hsome j hj
          rcases Option.isSome_iff_exists.mp hsome with ⟨v, hv⟩
          cases hget : pyGet bits (i - 1) with
          | none => rw [hget] at hv; simp at hv
          | some x =>
              rw [hget] at hv
              cases hrest : permPy bits rest with
              | none => rw [hrest] at hv; simp at hv
              | some xs =>
                  have hgs : (pyGet bits (i - 1)).isSome := by rw [hget]; rfl
                  have hrs : (permPy bits rest).isSome := by rw [hrest]; rfl
                  have hi := (pyGet_isSome bits (i - 1)).mp hgs
                  have hr := (ih.1.mp hrs) j
                  rcases List.mem_cons.mp hj with hj1 | hj2
                  · subst hj1; omega
                  · exact hr hj2
        · intro hall
          have hi := hall i (by simp)
          have hgs : (pyGet bits (i - 1)).isSome := by
            rw [pyGet_isSome]; omega
          have hrs : (permPy bits rest).isSome := by
            rw [ih.1]; intro j hj; exact hall j (by simp [hj])
          rcases Option.isSome_iff_exists.mp hgs with ⟨x, hx⟩
          rcases Option.isSome_iff_exists.mp hrs with ⟨xs, hxs⟩
          rw [hx, hxs]
          rfl
      · intro hall
        have hi := hall i (by simp)
        rw [permPy]
        rw [pyGet_of_pos bits (i - 1) (by omega) (by omega)]
        rw [ih.2 (fun j hj => hall j (by simp [hj]))]
        show some _ = some _
        congr 1
        show bits.getD (i - 1).toNat 0 :: perm bits (rest.map Int.toNat) = _
        unfold perm
        rw [List.map_cons, List.map_cons]
        congr 2
        omega

end Des

/-- Claim C2: for every 64-bit block B and every 64-bit key K, decrypting a
single block (16 Feistel rounds with the subkeys of K in reverse order) of
the encryption of B (16 rounds with the subkeys in forward order) yields B:
`des_block(des_block(B, subkeys, enc=True), subkeys, enc=False) == B`. -/
theorem C2_des_block_involution (B K : List Nat) (hB : B.length = 64)
    (_hK : K.length = 64) :
    Des.des_block (Des.des_block B (Des.gen_subkeys K) true) (Des.gen_subkeys K) false = B :=
  Des.des_block_inv B (Des.gen_subkeys K) hB

/-- Witness for C2 at a concrete block and key. -/
theorem C2_des_block_involution_witness :
    Des.des_block (Des.des_block (List.replicate 64 0) (Des.gen_subkeys (List.replicate 64 1)) true)
      (Des.gen_subkeys (List.replicate 64 1)) false = List.replicate 64 0 :=
  C2_des_block_involution (List.replicate 64 0) (List.replicate 64 1) (by decide) (by decide)

/-- Claim C3: for every byte-aligned bit vector X, `pad(X)` appends at least
1 and at most 8 whole bytes to X, and `unpad(pad(X)) == X`. -/
theorem C3_pad_bounds_unpad (X : List Nat) (_h : 8 ∣ X.length) :
    ∃ k s, 1 ≤ k ∧ k ≤ 8 ∧ Des.pad X = X ++ s ∧ s.length = 8 * k ∧
      Des.unpad (Des.pad X) = X := by
  refine ⟨8 - ((X.length / 8) % 8),
    (List.replicate (8 - ((X.length / 8) % 8))
      (Des.string_to_bits [8 - ((X.length / 8) % 8)])).flatten,
    by omega, by omega, rfl, ?_, Des.unpad_pad X⟩
  rw [Des.length_flatten_replicate, Des.length_string_to_bits_single]
  ring

/-- Witness for C3 at a concrete byte-aligned input. -/
theorem C3_pad_bounds_unpad_witness :
    ∃ k s, 1 ≤ k ∧ k ≤ 8 ∧ Des.pad [1, 0, 1, 0, 1, 0, 1, 0] = [1, 0, 1, 0, 1, 0, 1, 0] ++ s ∧
      s.length = 8 * k ∧ Des.unpad (Des.pad [1, 0, 1, 0, 1, 0, 1, 0]) = [1, 0, 1, 0, 1, 0, 1, 0] :=
  C3_pad_bounds_unpad [1, 0, 1, 0, 1, 0, 1, 0] (by decide)

/-- Claim C5 (failing input): `unpad` performs no validation.  On the 8-bit
input encoding the pad length 10 — which is outside `[1,8]` and asks for 80
bits when only 8 exist — the claim requires a PaddingError, but the code
silently returns the empty vector. -/
theorem C5_unpad_accepts_invalid_padding :
    Des.unpad [0, 0, 0, 0, 1, 0, 1, 0] = [] := by decide

/-- Claim C6 (failing input): `string_to_bits` does not fail on ordinals
≥ 256; it silently keeps only the low 8 bits, so `chr(256)` encodes exactly
like `chr(0)` instead of raising an EncodingError. -/
theorem C6_string_to_bits_truncates :
    Des.string_to_bits [256] = Des.string_to_bits [0] ∧
    Des.string_to_bits [256] = [0, 0, 0, 0, 0, 0, 0, 0] := by decide

/-- Claim C7 (counterexample): a table entry of 0 lies outside `[1, len]`,
yet `perm` does not fail — Python's negative indexing makes `bits[-1]` the
last element, so `perm([5,7],[0])` returns `[7]` instead of raising. -/
theorem C7_counterexample : Des.permPy [5, 7] [0] = some [7] := by decide

/-- Claim C7 (amended): `perm(input, table)` evaluates `input[table[i]-1]`
with Python index semantics, so it raises an IndexError only when some entry
lies outside `[1-len, len]`; negative entries down to `1-len` silently index
from the end.  On tables whose entries all lie in `[1, len]` it returns the
vector whose i-th element is `input[table[i]-1]`, as claimed. -/
theorem C7_perm_python_semantics (bits : List Nat) (table : List Int) :
    ((Des.permPy bits table).isSome ↔
      ∀ i ∈ table, 1 - (bits.length : Int) ≤ i ∧ i ≤ (bits.length : Int)) ∧
    ((∀ i ∈ table, 1 ≤ i ∧ i ≤ (bits.length : Int)) →
      Des.permPy bits table = some (Des.perm bits (table.map Int.toNat))) :=
  Des.permPy_spec bits table

/-- Witness for C7 at a concrete in-range table. -/
theorem C7_perm_python_semantics_witness :
    Des.permPy [5, 7] [2, 1] = some (Des.perm [5, 7] (List.map Int.toNat [2, 1])) :=
  (C7_perm_python_semantics [5, 7] [2, 1]).2 (by decide)

theorem getD_set_ne (l : List Nat) (i j v : Nat) (h : i ≠ j) :
    (l.set i v).getD j 0 = l.getD j 0 := by
  simp [List.getD_eq_getElem?_getD, List.getElem?_set_ne h]

theorem getD_set_eq (l : List Nat) (i v : Nat) (h : i < l.length) :
    (l.set i v).getD i 0 = v := by
  simp [List.getD_eq_getElem?_getD, List.getElem?_set_self, h]

theorem getD_mem_of_lt (l : List Nat) (n : Nat) (h : n < l.length) : l.getD n 0 ∈ l := by
  rw [List.getD_eq_getElem _ _ h]
  exact List.getElem_mem h

theorem foldl_set_length (ps : List (Nat × Nat)) (acc : List Nat) :
    (ps.foldl (fun a p => a.set (p.2 - 65) (65 + p.1)) acc).length = acc.length := by
  induction ps generalizing acc with
  | nil => rfl
  | cons p rest ih => rw [List.foldl_cons, ih, List.length_set]

theorem foldl_set_untouched (ps : List (Nat × Nat)) (acc : List Nat) (j : Nat)
    (h : ∀ p ∈ ps, p.2 - 65 ≠ j) :
    (ps.foldl (fun a p => a.set (p.2 - 65) (65 + p.1)) acc).getD j 0 = acc.getD j 0 := by
  induction ps generalizing acc with
  | nil => rfl
  | cons p rest ih =>
      rw [List.foldl_cons, ih _ (fun q hq => h q (List.mem_cons_of_mem _ hq))]
      exact getD_set_ne _ _ _ _ (h p (List.mem_cons_self _ _))

theorem mem_enumFrom_snd (l : List Nat) :
    ∀ (k : Nat) (p : Nat × Nat), p ∈ List.enumFrom k l → p.2 ∈ l := by
  induction l with
  | nil => intro k p hp; simp [List.enumFrom] at hp
  | cons a rest ih =>
      intro k p hp
      rw [show List.enumFrom k (a :: rest) = (k, a) :: List.enumFrom (k + 1) rest from rfl] at hp
      rcases List.mem_cons.mp hp with h | h
      · subst h; exact List.mem_cons_self _ _
      · exact List.mem_cons_of_mem _ (ih (k + 1) p h)

/-- The reverse-wiring fold writes `65 + i` into the slot of the `i`-th
wiring letter, and no later write disturbs it (letters are distinct). -/
theorem foldl_set_enumFrom_getD (w : List Nat) :
    ∀ (k : Nat) (acc : List Nat) (i : Nat), acc.length = 26 → w.Nodup →
      (∀ c ∈ w, 65 ≤ c ∧ c ≤ 90) → i < w.length →
      ((List.enumFrom k w).foldl (fun a p => a.set (p.2 - 65) (65 + p.1)) acc).getD
        (w.getD i 0 - 65) 0 = 65 + (k + i) := by
  induction w with
  | nil => intro k acc i _ _ _ hi; simp at hi
  | cons a rest ih =>
      intro k acc i hacc hnd hrange hi
      rw [show List.enumFrom k (a :: rest) = (k, a) :: List.enumFrom (k + 1) rest from rfl,
        List.foldl_cons]
      rcases i with _ | i
      · have hne : ∀ p ∈ List.enumFrom (k + 1) rest, p.2 - 65 ≠ a - 65 := by
          intro p hp
          have hmem : p.2 ∈ rest := mem_enumFrom_snd rest (k + 1) p hp
          have hpa : p.2 ≠ a := by
            intro hcontra
            exact (List.nodup_cons.mp hnd).1 (hcontra ▸ hmem)
          have hq1 := hrange p.2 (List.mem_cons_of_mem _ hmem)
          have hq2 := hrange a (List.mem_cons_self _ _)
          omega
        show ((List.enumFrom (k + 1) rest).foldl (fun a p => a.set (p.2 - 65) (65 + p.1))
          (acc.set (a - 65) (65 + k))).getD (a - 65) 0 = 65 + (k + 0)
        rw [foldl_set_untouched _ _ _ hne]
        have hq2 := hrange a (List.mem_cons_self _ _)
        rw [getD_set_eq _ _ _ (by omega)]
        omega
      · show ((List.enumFrom (k + 1) rest).foldl (fun a p => a.set (p.2 - 65) (65 + p.1))
          (acc.set (a - 65) (65 + k))).getD (rest.getD i 0 - 65) 0 = 65 + (k + (i + 1))
        have hstep := ih (k + 1) (acc.set (a - 65) (65 + k)) i
          (by rw [List.length_set, hacc]) (List.nodup_cons.mp hnd).2
          (fun c hc => hrange c (List.mem_cons_of_mem _ hc)) (by simpa using hi)
        rw [hstep]
        omega

theorem mkReverseWiring_getD (w : List Nat) (hnd : w.Nodup)
    (hrange : ∀ c ∈ w, 65 ≤ c ∧ c ≤ 90) (i : Nat) (hi : i < w.length) :
    (mkReverseWiring w).getD (w.getD i 0 - 65) 0 = 65 + i := by
  have h := foldl_set_enumFrom_getD w 0 (List.replicate 26 0) i (by simp) hnd hrange hi
  simpa [mkReverseWiring, List.enum] using h

theorem validWiring_mem (w : List Nat) (hw : validWiring w) (x : Nat)
    (h1 : 65 ≤ x) (h2 : x ≤ 90) : x ∈ w := by
  obtain ⟨hlen, hnd, hrange⟩ := hw
  have hsub : w ⊆ List.range' 65 26 := by
    intro c hc
    rw [List.mem_range'_1]
    have := hrange c hc
    omega
  have hperm : w.Perm (List.range' 65 26) :=
    (List.subperm_of_subset hnd hsub).perm_of_length_le (by simp [hlen])
  exact hperm.mem_iff.mpr (by rw [List.mem_range'_1]; omega)

theorem validWiring_surj (w : List Nat) (hw : validWiring w) (j : Nat) (hj : j < 26) :
    ∃ i, i < w.length ∧ w.getD i 0 = 65 + j := by
  have hmem : (65 + j) ∈ w := validWiring_mem w hw (65 + j) (by omega) (by omega)
  rcases List.mem_iff_getElem.mp hmem with ⟨i, hi, hgi⟩
  exact ⟨i, hi, by rw [List.getD_eq_getElem _ _ hi, hgi]⟩

theorem rotorMap_range (t : List Nat) (pos c : Nat) :
    65 ≤ rotorMap t pos c ∧ rotorMap t pos c ≤ 90 := by
  simp only [rotorMap]
  omega

/-- Applying the reverse table after the table recovers the letter (at any
fixed position). -/
theorem rotorMap_left_inverse (w : List Nat) (hnd : w.Nodup)
    (hrange : ∀ x ∈ w, 65 ≤ x ∧ x ≤ 90) (hlen : w.length = 26) (pos c : Nat)
    (h1 : 65 ≤ c) (h2 : c ≤ 90) :
    rotorMap (mkReverseWiring w) pos (rotorMap w pos c) = c := by
  simp only [rotorMap]
  set i := (((c : Int) - 65 + (pos : Int)) % 26).toNat with hidef
  set ec := w.getD i 0 with hecdef
  have hi26 : i < 26 := by omega
  have hecr : 65 ≤ ec ∧ ec ≤ 90 := by
    rw [hecdef]
    exact hrange _ (getD_mem_of_lt w i (by omega))
  set e2 := ((((ec : Nat) : Int) - 65 - (pos : Int)) % 26).toNat with he2def
  have hidx2 : ((((65 + e2 : Nat) : Int) - 65 + (pos : Int)) % 26).toNat = ec - 65 := by
    omega
  rw [hidx2]
  have hrw : (mkReverseWiring w).getD (ec - 65) 0 = 65 + i := by
    rw [hecdef]
    exact mkReverseWiring_getD w hnd hrange i (by omega)
  rw [hrw]
  omega

/-- Applying the table after the reverse table recovers the letter (at any
fixed position). -/
theorem rotorMap_right_inverse (w : List Nat) (hw : validWiring w) (pos c : Nat)
    (h1 : 65 ≤ c) (h2 : c ≤ 90) :
    rotorMap w pos (rotorMap (mkReverseWiring w) pos c) = c := by
  obtain ⟨hlen, hnd, hrange⟩ := hw
  simp only [rotorMap]
  set j := (((c : Int) - 65 + (pos : Int)) % 26).toNat with hjdef
  have hj26 : j < 26 := by omega
  obtain ⟨i, hiw, hwi⟩ := validWiring_surj w ⟨hlen, hnd, hrange⟩ j hj26
  have hi26 : i < 26 := by omega
  set rj := (mkReverseWiring w).getD j 0 with hrjdef
  have hrj2 : rj = 65 + i := by
    rw [hrjdef]
    have h := mkReverseWiring_getD w hnd hrange i hiw
    rw [hwi] at h
    simpa using h
  set e2 := ((((rj : Nat) : Int) - 65 - (pos : Int)) % 26).toNat with he2def
  have hidx3 : ((((65 + e2 : Nat) : Int) - 65 + (pos : Int)) % 26).toNat = i := by
    omega
  rw [hidx3, hwi]
  omega

theorem pyIsAlpha_of_upper (c : Nat) (h1 : 65 ≤ c) (h2 : c ≤ 90) : pyIsAlpha c = true := by
  simp only [pyIsAlpha, Bool.or_eq_true, Bool.and_eq_true, decide_eq_true_eq]
  omega

theorem upperChar_of_upper (c : Nat) (h1 : 65 ≤ c) (h2 : c ≤ 90) : upperChar c = c := by
  unfold upperChar
  rw [if_neg (by omega)]

theorem upperChar_range (c : Nat) (hc : pyIsAlpha c = true) (hascii : c < 128) :
    65 ≤ upperChar c ∧ upperChar c ≤ 90 := by
  simp only [pyIsAlpha, Bool.or_eq_true, Bool.and_eq_true, decide_eq_true_eq] at hc
  unfold upperChar
  split <;> omega

theorem encrypt_forward_alpha (r : Rotor) (c : Nat) (h1 : 65 ≤ c) (h2 : c ≤ 90) :
    r.encrypt_forward c = rotorMap r.wiring r.position c := by
  rw [Rotor.encrypt_forward, pyIsAlpha_of_upper c h1 h2, upperChar_of_upper c h1 h2]
  simp

theorem encrypt_backward_alpha (r : Rotor) (c : Nat) (h1 : 65 ≤ c) (h2 : c ≤ 90) :
    r.encrypt_backward c = rotorMap r.reverse_wiring r.position c := by
  rw [Rotor.encrypt_backward, pyIsAlpha_of_upper c h1 h2, upperChar_of_upper c h1 h2]
  simp

theorem encrypt_forward_range (r : Rotor) (c : Nat) (h1 : 65 ≤ c) (h2 : c ≤ 90) :
    65 ≤ r.encrypt_forward c ∧ r.encrypt_forward c ≤ 90 := by
  rw [encrypt_forward_alpha r c h1 h2]
  exact rotorMap_range _ _ _

theorem encrypt_backward_range (r : Rotor) (c : Nat) (h1 : 65 ≤ c) (h2 : c ≤ 90) :
    65 ≤ r.encrypt_backward c ∧ r.encrypt_backward c ≤ 90 := by
  rw [encrypt_backward_alpha r c h1 h2]
  exact rotorMap_range _ _ _

theorem rotor_fb (r : Rotor) (hr : WFRotor r) (c : Nat) (h1 : 65 ≤ c) (h2 : c ≤ 90) :
    r.encrypt_backward (r.encrypt_forward c) = c := by
  obtain ⟨⟨hlen, hnd, hrange⟩, hrev⟩ := hr
  rw [encrypt_forward_alpha r c h1 h2]
  have hfr := rotorMap_range r.wiring r.position c
  rw [encrypt_backward_alpha r _ hfr.1 hfr.2, hrev]
  exact rotorMap_left_inverse r.wiring hnd hrange hlen r.position c h1 h2

theorem rotor_bf (r : Rotor) (hr : WFRotor r) (c : Nat) (h1 : 65 ≤ c) (h2 : c ≤ 90) :
    r.encrypt_forward (r.encrypt_backward c) = c := by
  obtain ⟨hw, hrev⟩ := hr
  have hbr := rotorMap_range r.reverse_wiring r.position c
  rw [encrypt_backward_alpha r c h1 h2, encrypt_forward_alpha r _ hbr.1 hbr.2, hrev]
  exact rotorMap_right_inverse r.wiring hw r.position c h1 h2

theorem rotate_rotors_frame (m : RotorMachine) :
    m.rotate_rotors.rotor1.wiring = m.rotor1.wiring ∧
    m.rotate_rotors.rotor1.reverse_wiring = m.rotor1.reverse_wiring ∧
    m.rotate_rotors.rotor1.notch_position = m.rotor1.notch_position ∧
    m.rotate_rotors.rotor2.wiring = m.rotor2.wiring ∧
    m.rotate_rotors.rotor2.reverse_wiring = m.rotor2.reverse_wiring ∧
    m.rotate_rotors.rotor2.notch_position = m.rotor2.notch_position ∧
    m.rotate_rotors.rotor3.wiring = m.rotor3.wiring ∧
    m.rotate_rotors.rotor3.reverse_wiring = m.rotor3.reverse_wiring ∧
    m.rotate_rotors.rotor3.notch_position = m.rotor3.notch_position := by
  unfold RotorMachine.rotate_rotors Rotor.rotate
  dsimp only
  split
  · split
    · simp
    · simp
  · simp

theorem WFMachine_rotate (m : RotorMachine) (h : WFMachine m) : WFMachine m.rotate_rotors := by
  obtain ⟨⟨h1a, h1b⟩, ⟨h2a, h2b⟩, ⟨h3a, h3b⟩⟩ := h
  obtain ⟨f1, f2, f3, f4, f5, f6, f7, f8, f9⟩ := rotate_rotors_frame m
  exact ⟨⟨by rw [f1]; exact h1a, by rw [f2, f1]; exact h1b⟩,
    ⟨by rw [f4]; exact h2a, by rw [f5, f4]; exact h2b⟩,
    ⟨by rw [f7]; exact h3a, by rw [f8, f7]; exact h3b⟩⟩

theorem encrypt_char_nonalpha (m : RotorMachine) (c : Nat) (h : pyIsAlpha c = false) :
    m.encrypt_char c = (m, c) := by
  simp [RotorMachine.encrypt_char, h]

theorem encrypt_char_alpha (m : RotorMachine) (c : Nat) (h : pyIsAlpha c = true) :
    m.encrypt_char c = (m.rotate_rotors,
      m.rotate_rotors.rotor3.encrypt_backward
        (m.rotate_rotors.rotor2.encrypt_backward
          (m.rotate_rotors.rotor1.encrypt_backward
            (90 - (m.rotate_rotors.rotor1.encrypt_forward
              (m.rotate_rotors.rotor2.encrypt_forward
                (m.rotate_rotors.rotor3.encrypt_forward (upperChar c))) - 65))))) := by
  simp [RotorMachine.encrypt_char, h]

theorem encrypt_char_range (m : RotorMachine) (c : Nat) (hc : pyIsAlpha c = true)
    (hascii : c < 128) :
    65 ≤ (m.encrypt_char c).2 ∧ (m.encrypt_char c).2 ≤ 90 := by
  rw [encrypt_char_alpha m c hc]
  have h0 := upperChar_range c hc hascii
  have h1 := encrypt_forward_range m.rotate_rotors.rotor3 _ h0.1 h0.2
  have h2 := encrypt_forward_range m.rotate_rotors.rotor2 _ h1.1 h1.2
  have h3 := encrypt_forward_range m.rotate_rotors.rotor1 _ h2.1 h2.2
  have h4 : 65 ≤ 90 - (m.rotate_rotors.rotor1.encrypt_forward
      (m.rotate_rotors.rotor2.encrypt_forward
        (m.rotate_rotors.rotor3.encrypt_forward (upperChar c))) - 65) ∧
      90 - (m.rotate_rotors.rotor1.encrypt_forward
      (m.rotate_rotors.rotor2.encrypt_forward
        (m.rotate_rotors.rotor3.encrypt_forward (upperChar c))) - 65) ≤ 90 := by
    omega
  have h5 := encrypt_backward_range m.rotate_rotors.rotor1 _ h4.1 h4.2
  have h6 := encrypt_backward_range m.rotate_rotors.rotor2 _ h5.1 h5.2
  exact encrypt_backward_range m.rotate_rotors.rotor3 _ h6.1 h6.2

/-- Encrypting the output of `encrypt_char`, starting from the same machine
state, returns the uppercased input: the per-character involution. -/
theorem encrypt_char_invol (m : RotorMachine) (hm : WFMachine m) (c : Nat)
    (hc : pyIsAlpha c = true) (hascii : c < 128) :
    m.encrypt_char (m.encrypt_char c).2 = (m.rotate_rotors, upperChar c) := by
  have hwf1 := WFMachine_rotate m hm
  have h0 := upperChar_range c hc hascii
  rw [encrypt_char_alpha m c hc]
  set u := upperChar c with hu
  set s1 := m.rotate_rotors.rotor3.encrypt_forward u with hs1
  have h1 := encrypt_forward_range m.rotate_rotors.rotor3 u h0.1 h0.2
  set s2 := m.rotate_rotors.rotor2.encrypt_forward s1 with hs2
  have h2 := encrypt_forward_range m.rotate_rotors.rotor2 s1 h1.1 h1.2
  set s3 := m.rotate_rotors.rotor1.encrypt_forward s2 with hs3
  have h3 := encrypt_forward_range m.rotate_rotors.rotor1 s2 h2.1 h2.2
  set s4 := 90 - (s3 - 65) with hs4
  have h4 : 65 ≤ s4 ∧ s4 ≤ 90 := by omega
  set s5 := m.rotate_rotors.rotor1.encrypt_backward s4 with hs5
  have h5 := encrypt_backward_range m.rotate_rotors.rotor1 s4 h4.1 h4.2
  set s6 := m.rotate_rotors.rotor2.encrypt_backward s5 with hs6
  have h6 := encrypt_backward_range m.rotate_rotors.rotor2 s5 h5.1 h5.2
  set s7 := m.rotate_rotors.rotor3.encrypt_backward s6 with hs7
  have h7 := encrypt_backward_range m.rotate_rotors.rotor3 s6 h6.1 h6.2
  show m.encrypt_char s7 = (m.rotate_rotors, u)
  rw [encrypt_char_alpha m s7 (pyIsAlpha_of_upper s7 h7.1 h7.2),
    upperChar_of_upper s7 h7.1 h7.2]
  rw [hs7, rotor_bf m.rotate_rotors.rotor3 hwf1.2.2 s6 h6.1 h6.2]
  rw [hs6, rotor_bf m.rotate_rotors.rotor2 hwf1.2.1 s5 h5.1 h5.2]
  rw [hs5, rotor_bf m.rotate_rotors.rotor1 hwf1.1 s4 h4.1 h4.2]
  rw [show 90 - (s4 - 65) = s3 from by omega]
  rw [hs3, rotor_fb m.rotate_rotors.rotor1 hwf1.1 s2 h2.1 h2.2]
  rw [hs2, rotor_fb m.rotate_rotors.rotor2 hwf1.2.1 s1 h1.1 h1.2]
  rw [hs1, rotor_fb m.rotate_rotors.rotor3 hwf1.2.2 u h0.1 h0.2]

theorem encrypt_cons_alpha (m : RotorMachine) (c : Nat) (rest : List Nat)
    (h : pyIsAlpha c = true) :
    m.encrypt (c :: rest) =
      (((m.encrypt_char c).1.encrypt rest).1,
        (m.encrypt_char c).2 :: ((m.encrypt_char c).1.encrypt rest).2) := by
  simp [RotorMachine.encrypt, h]

theorem encrypt_cons_nonalpha (m : RotorMachine) (c : Nat) (rest : List Nat)
    (h : pyIsAlpha c = false) :
    m.encrypt (c :: rest) = ((m.encrypt rest).1, c :: (m.encrypt rest).2) := by
  simp [RotorMachine.encrypt, h]

/-- Running the machine twice from the same state over a message of 8-bit
ASCII characters reproduces the message with alphabetic characters
uppercased, and leaves the machine in the same final state: the machine-level
self-inverse property. -/
theorem encrypt_double (m : RotorMachine) (hm : WFMachine m) (msg : List Nat)
    (hascii : ∀ c ∈ msg, c < 128) :
    m.encrypt (m.encrypt msg).2 =
      ((m.encrypt msg).1, msg.map (fun ch => if pyIsAlpha ch then upperChar ch else ch)) := by
  induction msg generalizing m with
  | nil => rfl
  | cons c rest ih =>
      by_cases hc : pyIsAlpha c = true
      · rw [encrypt_cons_alpha m c rest hc]
        have hcr := encrypt_char_range m c hc (hascii c (List.mem_cons_self _ _))
        have halpha2 : pyIsAlpha (m.encrypt_char c).2 = true :=
          pyIsAlpha_of_upper _ hcr.1 hcr.2
        rw [encrypt_cons_alpha m (m.encrypt_char c).2 _ halpha2]
        have hinv := encrypt_char_invol m hm c hc (hascii c (List.mem_cons_self _ _))
        have hfst : (m.encrypt_char c).1 = m.rotate_rotors := by
          rw [encrypt_char_alpha m c hc]
        rw [hinv, hfst]
        have hih := ih m.rotate_rotors (WFMachine_rotate m hm)
          (fun x hx => hascii x (List.mem_cons_of_mem _ hx))
        rw [hih]
        simp [hc]
      · have hc2 : pyIsAlpha c = false := Bool.eq_false_iff.mpr hc
        rw [encrypt_cons_nonalpha m c rest hc2]
        rw [encrypt_cons_nonalpha m c (m.encrypt rest).2 hc2]
        have hih := ih m hm (fun x hx => hascii x (List.mem_cons_of_mem _ hx))
        rw [hih]
        simp [hc2]

/-- The machine maps printable-ASCII messages to printable-ASCII output
(alphabetic characters land in `[65, 90]`, others pass through). -/
theorem encrypt_output_range (m : RotorMachine) (msg : List Nat)
    (h : ∀ c ∈ msg, 32 ≤ c ∧ c ≤ 126) :
    ∀ c ∈ (m.encrypt msg).2, 32 ≤ c ∧ c ≤ 126 := by
  induction msg generalizing m with
  | nil => intro c hc; simp [RotorMachine.encrypt] at hc
  | cons a rest ih =>
      by_cases ha : pyIsAlpha a = true
      · rw [encrypt_cons_alpha m a rest ha]
        intro c hc
        rcases List.mem_cons.mp hc with h1 | h1
        · have hr := encrypt_char_range m a ha
            (by have := h a (List.mem_cons_self _ _); omega)
          subst h1
          omega
        · exact ih ((m.encrypt_char a).1) (fun x hx => h x (List.mem_cons_of_mem _ hx)) c h1
      · have ha2 : pyIsAlpha a = false := Bool.eq_false_iff.mpr ha
        rw [encrypt_cons_nonalpha m a rest ha2]
        intro c hc
        rcases List.mem_cons.mp hc with h1 | h1
        · rw [h1]; exact h a (List.mem_cons_self _ _)
        · exact ih m (fun x hx => h x (List.mem_cons_of_mem _ hx)) c h1

/-- Claim C8: for every ASCII non-alphabetic character c and every
rotor-machine state, `encrypt_char(c)` returns c unchanged and leaves the
machine's state (all rotor positions included) unchanged. -/
theorem C8_nonalpha_passthrough (m : RotorMachine) (c : Nat) (_hascii : c < 128)
    (h : pyIsAlpha c = false) : m.encrypt_char c = (m, c) :=
  encrypt_char_nonalpha m c h

/-- Witness for C8 at a concrete machine and the space character. -/
theorem C8_nonalpha_passthrough_witness :
    (mkRotorMachine rotor1_wiring rotor2_wiring rotor3_wiring 16 4 21 0 0 0).encrypt_char 32 =
      (mkRotorMachine rotor1_wiring rotor2_wiring rotor3_wiring 16 4 21 0 0 0, 32) :=
  C8_nonalpha_passthrough (mkRotorMachine rotor1_wiring rotor2_wiring rotor3_wiring 16 4 21 0 0 0)
    32 (by decide) (by decide)

/-- Claim C10: for every rotor built from a wiring that is a permutation of
the 26 uppercase letters, every position in `[0, 26)` and every uppercase
letter c, the forward and backward maps at that fixed position are mutual
inverses. -/
theorem C10_rotor_forward_backward_inverse (w : List Nat) (n p c : Nat)
    (hw : validWiring w) (_hp : p < 26) (h1 : 65 ≤ c) (h2 : c ≤ 90) :
    (mkRotor w n p).encrypt_backward ((mkRotor w n p).encrypt_forward c) = c ∧
    (mkRotor w n p).encrypt_forward ((mkRotor w n p).encrypt_backward c) = c := by
  have hupper : w.map upperChar = w := by
    conv_rhs => rw [← List.map_id w]
    apply List.map_congr_left
    intro x hx
    have := hw.2.2 x hx
    simp [upperChar]
    omega
  have hwf : WFRotor (mkRotor w n p) := by
    constructor
    · show validWiring (w.map upperChar)
      rw [hupper]; exact hw
    · show mkReverseWiring (w.map upperChar) = mkReverseWiring (w.map upperChar)
      rfl
  exact ⟨rotor_fb (mkRotor w n p) hwf c h1 h2, rotor_bf (mkRotor w n p) hwf c h1 h2⟩

/-- Witness for C10 at a concrete rotor, position and letter. -/
theorem C10_rotor_forward_backward_inverse_witness :
    (mkRotor rotor1_wiring 16 3).encrypt_backward
      ((mkRotor rotor1_wiring 16 3).encrypt_forward 72) = 72 ∧
    (mkRotor rotor1_wiring 16 3).encrypt_forward
      ((mkRotor rotor1_wiring 16 3).encrypt_backward 72) = 72 :=
  C10_rotor_forward_backward_inverse rotor1_wiring 16 3 72
    (by constructor; · decide
        constructor; · decide
        · decide)
    (by decide) (by decide) (by decide)

/-- Claim C4 (amended): for a machine whose three rotors start at position 0,
whose rightmost notch is 4, and whose middle notch is not 1, encoding exactly
5 alphabetic ASCII characters advances the middle rotor exactly once (from 0
to 1) and leaves the leftmost rotor at position 0. -/
theorem C4_notch_propagation (w1 w2 w3 : List Nat) (n1 n2 : Nat) (hn2 : n2 ≠ 1)
    (c1 c2 c3 c4 c5 : Nat)
    (h1 : pyIsAlpha c1 = true) (h2 : pyIsAlpha c2 = true) (h3 : pyIsAlpha c3 = true)
    (h4 : pyIsAlpha c4 = true) (h5 : pyIsAlpha c5 = true) :
    ((mkRotorMachine w1 w2 w3 n1 n2 4 0 0 0).encrypt
        [c1, c2, c3, c4, c5]).1.rotor2.position = 1 ∧
    ((mkRotorMachine w1 w2 w3 n1 n2 4 0 0 0).encrypt
        [c1, c2, c3, c4, c5]).1.rotor1.position = 0 := by
  have e1 : ∀ (mm : RotorMachine) (c : Nat) (rest : List Nat), pyIsAlpha c = true →
      (mm.encrypt (c :: rest)).1 = (mm.rotate_rotors.encrypt rest).1 := by
    intro mm c rest hc
    rw [encrypt_cons_alpha mm c rest hc, encrypt_char_alpha mm c hc]
  rw [e1 _ _ _ h1, e1 _ _ _ h2, e1 _ _ _ h3, e1 _ _ _ h4, e1 _ _ _ h5]
  have hb : ((1 : Nat) == n2) = false := beq_eq_false_iff_ne.mpr (by omega)
  simp [mkRotorMachine, mkRotor, RotorMachine.rotate_rotors, Rotor.rotate,
    RotorMachine.encrypt, hb]

/-- Witness for C4 at concrete wirings, notches and message. -/
theorem C4_notch_propagation_witness :
    ((mkRotorMachine rotor1_wiring rotor2_wiring rotor3_wiring 16 4 4 0 0 0).encrypt
        [72, 69, 76, 76, 79]).1.rotor2.position = 1 ∧
    ((mkRotorMachine rotor1_wiring rotor2_wiring rotor3_wiring 16 4 4 0 0 0).encrypt
        [72, 69, 76, 76, 79]).1.rotor1.position = 0 :=
  C4_notch_propagation rotor1_wiring rotor2_wiring rotor3_wiring 16 4 (by decide)
    72 69 76 76 79 (by decide) (by decide) (by decide) (by decide) (by decide)

/-- Claim C4 (counterexample): with the middle rotor's notch at 1 the claim
as stated fails — the rotors all start at 0 and the rightmost notch is 4, yet
after 5 alphabetic characters the leftmost rotor has moved to position 1. -/
theorem C4_counterexample :
    ((mkRotorMachine rotor1_wiring rotor2_wiring rotor3_wiring 0 1 4 0 0 0).encrypt
        [65, 65, 65, 65, 65]).1.rotor1.position = 1 := by decide

theorem des_pad_length (b : List Nat) :
    (Des.pad b).length = b.length + (8 - ((b.length / 8) % 8)) * 8 := by
  unfold Des.pad
  rw [List.length_append, Des.length_flatten_replicate, Des.length_string_to_bits_single]

theorem des_pad_dvd (b : List Nat) (h : 8 ∣ b.length) : 64 ∣ (Des.pad b).length := by
  rw [des_pad_length]
  omega

/-- The full DES string round trip: decryption undoes encryption on any text
of 8-bit characters (with any key — the Feistel structure inverts for any
subkey list). -/
theorem des_roundtrip (text key : List Nat) (hc : ∀ c ∈ text, c < 256) :
    Des.des_decrypt (Des.des_encrypt text key) key = text := by
  unfold Des.des_encrypt Des.des_decrypt
  have hdvd : 64 ∣ (Des.pad (Des.string_to_bits text)).length :=
    des_pad_dvd _ ⟨text.length, Des.length_string_to_bits text⟩
  rw [Des.des_blocks_inv _ _ hdvd, Des.unpad_pad, Des.bits_to_string_string_to_bits text hc]

theorem nibble_val_le (b1 b2 b3 b4 : Nat) (h1 : b1 ≤ 1) (h2 : b2 ≤ 1) (h3 : b3 ≤ 1)
    (h4 : b4 ≤ 1) :
    nibble_val [b1, b2, b3, b4] ≤ 15 ∧
    nibble_bits (nibble_val [b1, b2, b3, b4]) = [b1, b2, b3, b4] := by
  interval_cases b1 <;> interval_cases b2 <;> interval_cases b3 <;> interval_cases b4 <;> decide

theorem parse_upper_hexDigitChar (v : Nat) (hv : v ≤ 15) :
    parseHexDigit (upperChar (hexDigitChar v)) = some v ∧
    ((48 ≤ upperChar (hexDigitChar v) ∧ upperChar (hexDigitChar v) ≤ 57) ∨
     (65 ≤ upperChar (hexDigitChar v) ∧ upperChar (hexDigitChar v) ≤ 70)) := by
  interval_cases v <;> decide

theorem length_hex_nibbles_go (n : Nat) : ∀ key : List Nat,
    (hex_nibbles_go n key).length = n := by
  induction n with
  | zero => intro key; rfl
  | succ m ih => intro key; simp [hex_nibbles_go, ih]

/-- Parsing the uppercased hex digits of a bit list recovers the bits, and
every produced character is a decimal digit or an uppercase A–F. -/
theorem hex_go_spec (n : Nat) :
    ∀ key : List Nat, key.length = 4 * n → (∀ b ∈ key, b ≤ 1) →
      parse_hex_key ((hex_nibbles_go n key).map upperChar) = some key ∧
      ∀ c ∈ (hex_nibbles_go n key).map upperChar,
        (48 ≤ c ∧ c ≤ 57) ∨ (65 ≤ c ∧ c ≤ 70) := by
  induction n with
  | zero =>
      intro key h _
      have hnil : key = [] := List.length_eq_zero.mp (by omega)
      subst hnil
      exact ⟨rfl, by intro c hc; simp [hex_nibbles_go] at hc⟩
  | succ m ih =>
      intro key hlen hb
      rcases key with _ | ⟨b1, key⟩
      · simp at hlen
      rcases key with _ | ⟨b2, key⟩
      · simp at hlen; omega
      rcases key with _ | ⟨b3, key⟩
      · simp at hlen; omega
      rcases key with _ | ⟨b4, rest⟩
      · simp at hlen; omega
      have hgo : hex_nibbles_go (m + 1) (b1 :: b2 :: b3 :: b4 :: rest) =
          hexDigitChar (nibble_val [b1, b2, b3, b4]) :: hex_nibbles_go m rest := rfl
      have hb1 : b1 ≤ 1 := hb b1 (by simp)
      have hb2 : b2 ≤ 1 := hb b2 (by simp)
      have hb3 : b3 ≤ 1 := hb b3 (by simp)
      have hb4 : b4 ≤ 1 := hb b4 (by simp)
      have hnib := nibble_val_le b1 b2 b3 b4 hb1 hb2 hb3 hb4
      have hpd := parse_upper_hexDigitChar (nibble_val [b1, b2, b3, b4]) hnib.1
      have hih := ih rest (by simp only [List.length_cons] at hlen; omega)
        (fun x hx => hb x (by simp [hx]))
      rw [hgo, List.map_cons]
      constructor
      · simp [parse_hex_key, hpd.1, hih.1, hnib.2]
      · intro c hc
        rcases List.mem_cons.mp hc with hc1 | hc1
        · rw [hc1]; exact hpd.2
        · exact hih.2 c hc1

/-- Claim C9: for every valid 64-bit key (a list of 64 bits), converting to
the 16-character hexadecimal representation and parsing it back restores the
same 64 bits; every produced character is a decimal digit or uppercase A–F;
and parsing rejects any string that is not exactly 16 characters. -/
theorem C9_hex_key_roundtrip (key : List Nat) (hlen : key.length = 64)
    (hbits : ∀ b ∈ key, b ≤ 1) :
    set_des_key_from_hex (get_des_key_hex key) = some key ∧
    (∀ c ∈ get_des_key_hex key, (48 ≤ c ∧ c ≤ 57) ∨ (65 ≤ c ∧ c ≤ 70)) ∧
    (∀ hex : List Nat, hex.length ≠ 16 → set_des_key_from_hex hex = none) := by
  have hcount : (key.length + 3) / 4 = 16 := by omega
  have hspec := hex_go_spec 16 key (by omega) hbits
  refine ⟨?_, ?_, ?_⟩
  · unfold set_des_key_from_hex get_des_key_hex
    rw [hcount]
    rw [if_neg (by rw [List.length_map, length_hex_nibbles_go]; omega)]
    exact hspec.1
  · unfold get_des_key_hex
    rw [hcount]
    exact hspec.2
  · intro hex hne
    unfold set_des_key_from_hex
    rw [if_pos hne]

/-- Witness for C9 at the all-ones key. -/
theorem C9_hex_key_roundtrip_witness :
    set_des_key_from_hex (get_des_key_hex (List.replicate 64 1)) =
        some (List.replicate 64 1) ∧
    (∀ c ∈ get_des_key_hex (List.replicate 64 1),
        (48 ≤ c ∧ c ≤ 57) ∨ (65 ≤ c ∧ c ≤ 70)) ∧
    (∀ hex : List Nat, hex.length ≠ 16 → set_des_key_from_hex hex = none) :=
  C9_hex_key_roundtrip (List.replicate 64 1) (by decide) (by decide)

/-- The heart of the hybrid round trip: running the (well-formed) machine
from a fixed state, sending the output through the DES string round trip, and
running the machine from the same state again, reproduces the message with
alphabetic characters uppercased — exactly the message when it holds no
lowercase letters. -/
theorem hybrid_roundtrip_core (M : RotorMachine) (hwf : WFMachine M) (key T : List Nat)
    (hT : ∀ c ∈ T, 32 ≤ c ∧ c ≤ 126) (hTlow : ∀ c ∈ T, ¬(97 ≤ c ∧ c ≤ 122)) :
    (M.encrypt (Des.des_decrypt (Des.des_encrypt (M.encrypt T).2 key) key)).2 = T := by
  have hCrange := encrypt_output_range M T hT
  rw [des_roundtrip _ _ (fun c hc => by have := hCrange c hc; omega)]
  rw [encrypt_double M hwf T (fun c hc => by have := hT c hc; omega)]
  show T.map (fun ch => if pyIsAlpha ch then upperChar ch else ch) = T
  conv_rhs => rw [← List.map_id T]
  apply List.map_congr_left
  intro x hx
  have hx2 := hTlow x hx
  by_cases hpx : pyIsAlpha x = true
  · rw [if_pos hpx]
    unfold upperChar
    rw [if_neg hx2]
    rfl
  · rw [if_neg hpx]
    rfl

/-- Claim C1 (amended): for every hybrid pipeline whose (case-insensitive)
wirings are permutations of A–Z, every 64-bit key, and every printable-ASCII
text T that contains no lowercase letters, decrypting the encryption of T
returns T exactly.  (For general printable ASCII the round trip returns T
with lowercase letters uppercased — see the counterexample.) -/
theorem C1_hybrid_roundtrip (w1 w2 w3 : List Nat) (n1 n2 n3 p1 p2 p3 : Nat)
    (key T : List Nat)
    (hw1 : validWiring (w1.map upperChar)) (hw2 : validWiring (w2.map upperChar))
    (hw3 : validWiring (w3.map upperChar)) (_hkey : key.length = 64)
    (hT : ∀ c ∈ T, 32 ≤ c ∧ c ≤ 126) (hTlow : ∀ c ∈ T, ¬(97 ≤ c ∧ c ≤ 122)) :
    (mkHybridCryptosystem w1 w2 w3 n1 n2 n3 p1 p2 p3 key).decrypt
      ((mkHybridCryptosystem w1 w2 w3 n1 n2 n3 p1 p2 p3 key).encrypt T) = T := by
  have hwf : WFMachine
      (mkHybridCryptosystem w1 w2 w3 n1 n2 n3 p1 p2 p3 key).reset_rotors.rotor_machine :=
    ⟨⟨hw1, rfl⟩, ⟨hw2, rfl⟩, ⟨hw3, rfl⟩⟩
  exact hybrid_roundtrip_core _ hwf key T hT hTlow

/-- Witness for C1 at the demo configuration and the message "HI". -/
theorem C1_hybrid_roundtrip_witness :
    (mkHybridCryptosystem rotor1_wiring rotor2_wiring rotor3_wiring 16 4 21 0 0 0
        (List.replicate 16 [0, 1, 1, 0]).flatten).decrypt
      ((mkHybridCryptosystem rotor1_wiring rotor2_wiring rotor3_wiring 16 4 21 0 0 0
        (List.replicate 16 [0, 1, 1, 0]).flatten).encrypt [72, 73]) = [72, 73] :=
  C1_hybrid_roundtrip rotor1_wiring rotor2_wiring rotor3_wiring 16 4 21 0 0 0
    (List.replicate 16 [0, 1, 1, 0]).flatten [72, 73]
    ⟨by decide, by decide, by decide⟩ ⟨by decide, by decide, by decide⟩
    ⟨by decide, by decide, by decide⟩ (by decide) (by decide) (by decide)

/-- Claim C1 (counterexample): on the lowercase printable-ASCII text "a" the
round trip returns "A", not "a" — the rotor stage uppercases alphabetic
characters, so the claim as stated fails. -/
theorem C1_counterexample :
    (mkHybridCryptosystem rotor1_wiring rotor2_wiring rotor3_wiring 16 4 21 0 0 0
        (List.replicate 16 [0, 1, 1, 0]).flatten).decrypt
      ((mkHybridCryptosystem rotor1_wiring rotor2_wiring rotor3_wiring 16 4 21 0 0 0
        (List.replicate 16 [0, 1, 1, 0]).flatten).encrypt [97]) = [65] ∧
    (97 : Nat) ≠ 65 := by decide
